import Mathlib

/- Verification of the Hirshfeld-E partitioning module
   (horton/part/hirshfeld_e.py): a shallow embedding of the basis
   builder `HEBasis`, the per-atom update steps of `HirshfeldEDPart`
   and `HirshfeldECPart`, the history bookkeeping of the mixin, and
   `compute_proatom`.  Real numbers of the code are modelled as
   rationals; the external collaborators (pro-atom database, grid
   integration, quadratic-programming primitive) are parameters whose
   contracts follow the specification document. -/

namespace HirshfeldE

/-- Plain dot product of two coefficient vectors, truncating at the
shorter one (as numpy broadcasting never arises here: the code always
pairs vectors of equal length). -/
def dot (a b : List ℚ) : ℚ := (List.zipWith (· * ·) a b).sum

/-- Modelled from the spec: `dot_multi` lives in `horton.grid.cext`,
which is not under `src/`; the spec describes it as the weighted radial
integral, i.e. the sum of the elementwise product of the weight array
and the two value arrays. -/
def dotMulti (w a b : List ℚ) : ℚ :=
  (List.zipWith (· * ·) (List.zipWith (· * ·) w a) b).sum

/-- A dense matrix is modelled as a total function on index pairs;
entries never written stay at the `np.zeros` initial value 0. -/
def matUpd (A : ℕ → ℕ → ℚ) (i j : ℕ) (v : ℚ) : ℕ → ℕ → ℚ :=
  fun p q => if p = i ∧ q = j then v else A p q

/-- The all-zero matrix (`np.zeros((nbasis, nbasis))`). -/
def matZero : ℕ → ℕ → ℚ := fun _ _ => 0

/- ---------------------------------------------------------------
   HEBasis (hirshfeld_e.py, lines 41-120)
   --------------------------------------------------------------- -/

/-- Modelled from the spec: the pro-atom database
(`horton/part/proatomdb.py`) is not under `src/`.  Per the spec it
offers the available charge states of an element (ordered so that the
first entry is the most positive charge, which is the one the
`complete` test of the basis builder applies to) and the
pseudo-population of a stored record. -/
structure ProAtomDB where
  getCharges : ℕ → List ℤ
  pseudoPopulation : ℕ → ℤ → ℚ

/-- The `complete` flag of `HEBasis.__init__`: the record of the first
listed charge state has pseudo-population exactly 1. -/
def heComplete (db : ProAtomDB) (number : ℕ) : Bool :=
  db.pseudoPopulation number ((db.getCharges number).headD 0) == 1

/-- Per-atom basis size of `HEBasis.__init__`:
`len(padb_charges) - 1 + complete`. -/
def heAtomNbasis (db : ProAtomDB) (number : ℕ) : ℕ :=
  (db.getCharges number).length - 1 + (if heComplete db number then 1 else 0)

/-- The linear-combination records (`licos`) built by
`HEBasis.__init__`; a lico is an association list from charge state to
coefficient, mirroring the Python dict literals. -/
def heAtomLicos (db : ProAtomDB) (number : ℕ) : List (List (ℤ × ℚ)) :=
  let charges := db.getCharges number
  (List.range (heAtomNbasis db number)).map (fun j =>
    if heComplete db number then
      if j = 0 then [(charges.getD 0 0, 1)]
      else [(charges.getD j 0, 1), (charges.getD (j - 1) 0, -1)]
    else [(charges.getD (j + 1) 0, 1), (charges.getD j 0, -1)])

/-- Python string formatting of a charge with an explicit sign, as in
the percent-plus-i conversion used by `get_basis_label`; zero renders
with a plus sign. -/
def fmtPlusInt (z : ℤ) : String :=
  if 0 ≤ z then "+" ++ toString z else toString z

/-- `HEBasis.get_basis_label`: sort the charges of the lico ascending
and join their signed renderings with an underscore; a lico with one
charge renders as the single signed charge.  The Python tuple
formatting fails for other arities, hence the `Option`. -/
def getBasisLabel (lico : List (ℤ × ℚ)) : Option String :=
  let charges := List.insertionSort (· ≤ ·) (lico.map Prod.fst)
  match charges with
  | [c] => some (fmtPlusInt c)
  | [c0, c1] => some (fmtPlusInt c0 ++ "_" ++ fmtPlusInt c1)
  | _ => none

/-- A concrete database for the hydrogen scenario of the spec: charge
states 0 and +1 are available (most positive first), the neutral record
holds one electron and the cation none. -/
def hydrogenDB : ProAtomDB :=
  ⟨fun _ => [1, 0], fun _ c => if c = 0 then 1 else 0⟩

/- ---------------------------------------------------------------
   The solver interface (horton/part/linalg.py, not under src/)
   --------------------------------------------------------------- -/

/-- Arguments handed to `quadratic_solver`: the matrix, the vector, the
equality constraints and the inequality constraints, each a pair of a
coefficient vector and a right-hand side. -/
structure SolverCall where
  matA : ℕ → ℕ → ℚ
  vecB : List ℚ
  lcsEq : List (List ℚ × ℚ)
  lcsIneq : List (List ℚ × ℚ)

instance : Inhabited SolverCall := ⟨⟨matZero, [], [], []⟩⟩

/-- Modelled from the spec: `quadratic_solver` of `horton.part.linalg`
is not under `src/`.  Per the spec it minimizes the quadratic form
subject to the given constraints, with the convention that a
constraint pair means the dot product of the coefficient vector with
the unknowns equals (for equality) or is at least (for inequality) the
right-hand side.  This predicate states that a vector satisfies every
constraint of a call; any output of the primitive satisfies it. -/
def satisfiesCall (call : SolverCall) (x : List ℚ) : Bool :=
  call.lcsEq.all (fun lc => dot lc.1 x == lc.2) &&
  call.lcsIneq.all (fun lc => decide (lc.2 ≤ dot lc.1 x))

/- ---------------------------------------------------------------
   HirshfeldEDPart._update_propars_atom (lines 190-252)
   --------------------------------------------------------------- -/

/-- The matrix A assembled by `HirshfeldEDPart._update_propars_atom`
(lines 209-216).  The loop runs `j0` over all basis indices and `j1`
up to `j0`, writes the entry and its mirror.  Note that the source
builds `spline1` from index `j0` (line 214), not from `j1`. -/
def edMatrixA (weights : List ℚ) (basisY : ℕ → List ℚ) (nbasis : ℕ) :
    ℕ → ℕ → ℚ :=
  (List.range nbasis).foldl (fun M j0 =>
    let spline0 := basisY j0
    (List.range (j0 + 1)).foldl (fun M2 j1 =>
      let spline1 := basisY j0
      let v := dotMulti weights spline0 spline1
      matUpd (matUpd M2 j0 j1 v) j1 j0 v) M)
    matZero

/-- Errors of the D-variant per-atom update: the weight assertion of
line 197 and the ValueError of lines 218-219 (whose message is the
fixed string given there). -/
inductive EDError where
  | assertWeightsPositive
  | diagMustBePositive (msg : String)
deriving DecidableEq

/-- The vector B and the constraints assembled by
`HirshfeldEDPart._update_propars_atom` (lines 224-244):
`B[j0] = grid.integrate(at_weights, dens, work) - dot_multi(weights,
spline_j0, constant)`, one equality constraint with all-ones
coefficients and right-hand side `-target_charge` (line 238), and one
inequality constraint per coefficient with a unit coefficient vector
and right-hand side -1 (lines 240-244). -/
def edCall (weights : List ℚ) (basisY : ℕ → List ℚ) (constantY : List ℚ)
    (gridIntB : ℕ → ℚ) (nbasis : ℕ) (targetCharge : ℚ) : SolverCall :=
  ⟨edMatrixA weights basisY nbasis,
   (List.range nbasis).map (fun j0 =>
     gridIntB j0 - dotMulti weights (basisY j0) constantY),
   [(List.replicate nbasis 1, -targetCharge)],
   (List.range nbasis).map (fun j0 =>
     ((List.range nbasis).map (fun i => if i = j0 then (1 : ℚ) else 0),
      (-1 : ℚ)))⟩

/-- One per-atom update of `HirshfeldEDPart` (lines 190-252), with the
externally supplied data as parameters: the quadrature `weights`
(line 196), the radial values of the basis splines and the constant
spline, the grid integral of atomic weight times molecular density
times basis function `j0` (first term of B, line 233), and the
quadratic-programming primitive.  Returns the solver call it issues
together with the coefficients written into the procoeffs slice, or
the error raised.  The caching of A per atomic number and the log
output are modelled separately. -/
def edUpdateAtom (weights : List ℚ) (basisY : ℕ → List ℚ)
    (constantY : List ℚ) (gridIntB : ℕ → ℚ) (nbasis : ℕ)
    (targetCharge : ℚ) (solver : SolverCall → List ℚ) :
    Except EDError (SolverCall × List ℚ) :=
  if weights.all (fun w => decide (0 < w)) then
    if (List.range nbasis).any
        (fun j => decide (edMatrixA weights basisY nbasis j j < 0)) then
      .error (.diagMustBePositive "The diagonal of A must be positive.")
    else
      .ok (edCall weights basisY constantY gridIntB nbasis targetCharge,
        solver (edCall weights basisY constantY gridIntB nbasis targetCharge))
  else
    .error .assertWeightsPositive

/-- Whether an `Except` result is a success. -/
def isOkE (r : Except ε α) : Bool :=
  match r with
  | .ok _ => true
  | .error _ => false

/-- The solver call recorded in a successful D-variant update. -/
def callOfED (r : Except EDError (SolverCall × List ℚ)) : SolverCall :=
  match r with
  | .ok (c, _) => c
  | .error _ => default

/-- The coefficients written into the procoeffs slice by a successful
D-variant update. -/
def coeffsOfED (r : Except EDError (SolverCall × List ℚ)) : List ℚ :=
  match r with
  | .ok (_, x) => x
  | .error _ => []

/- ---------------------------------------------------------------
   HirshfeldECPart._update_propars_atom (lines 311-391)
   --------------------------------------------------------------- -/

/-- The error of the C-variant per-atom update: the RuntimeError of
lines 339-340, whose formatted message carries the atom index, the
numeric charge and the basis size. -/
inductive ECError where
  | infeasible (index : ℕ) (charge : ℚ) (nbasis : ℕ)
deriving DecidableEq

/-- The message string of the infeasibility error, following the
format of line 340. -/
def ecErrorMessage : ECError → String
  | .infeasible i q n =>
    "The charge on atom " ++ toString i ++ " becomes too positive: " ++
      toString q ++ " > " ++ toString n ++ ". (infeasible)"

/-- The raw matrix A assembled by `HirshfeldECPart._update_propars_atom`
(lines 345-350) before preconditioning: here both factors use their own
index (`j0` for `work0`, `j1` for `work1`).  `integ` stands for
`self._ui_grid.integrate(work0, work1, wcor_fit)`. -/
def ecMatrixA (integ : List ℚ → List ℚ → ℚ) (basisFn : ℕ → List ℚ)
    (nbasis : ℕ) : ℕ → ℕ → ℚ :=
  (List.range nbasis).foldl (fun M j0 =>
    (List.range (j0 + 1)).foldl (fun M2 j1 =>
      let v := integ (basisFn j0) (basisFn j1)
      matUpd (matUpd M2 j0 j1 v) j1 j0 v) M)
    matZero

/-- Division of every column of a matrix by the scale vector
(`A /= scales`, line 354): entry (i, j) is divided by scale j. -/
def divCols (A : ℕ → ℕ → ℚ) (scales : List ℚ) : ℕ → ℕ → ℚ :=
  fun i j => A i j / scales.getD j 0

/-- Division of every row of a matrix by the scale vector
(`A /= scales.reshape(-1, 1)`, line 355): entry (i, j) is divided by
scale i. -/
def divRows (A : ℕ → ℕ → ℚ) (scales : List ℚ) : ℕ → ℕ → ℚ :=
  fun i j => A i j / scales.getD i 0

/-- The preconditioned matrix and the scale vector used by
`HirshfeldECPart._update_propars_atom`: on a cache hit they are loaded
as stored (lines 343 and 363); on a miss the raw matrix is assembled,
`scales` is the elementwise power 0.5 of its diagonal (line 353), and
the matrix is divided by the scales along both axes (lines 354-355)
before both are stored. -/
def ecAScales (integ : List ℚ → List ℚ → ℚ) (basisFn : ℕ → List ℚ)
    (sqrtFn : ℚ → ℚ) (nbasis : ℕ)
    (cached : Option ((ℕ → ℕ → ℚ) × List ℚ)) : (ℕ → ℕ → ℚ) × List ℚ :=
  match cached with
  | some pair => pair
  | none =>
    let A0 := ecMatrixA integ basisFn nbasis
    let scales := (List.range nbasis).map (fun j => sqrtFn (A0 j j))
    (divRows (divCols A0 scales) scales, scales)

/-- The solver call assembled by `HirshfeldECPart._update_propars_atom`
(lines 365-382): B is the grid integral of the residual AIM density
against each basis function, divided elementwise by the scales
(lines 366-370); the equality constraint has coefficient vector
ones-divided-by-scales and right-hand side `-charges[index]`
(line 375); inequality constraint `j0` has a single nonzero
coefficient `1/scales[j0]` and right-hand side -1 (lines 377-381). -/
def ecCall (integ : List ℚ → List ℚ → ℚ) (basisFn : ℕ → List ℚ)
    (sqrtFn : ℚ → ℚ) (aimdens : List ℚ) (nbasis : ℕ) (charge : ℚ)
    (cached : Option ((ℕ → ℕ → ℚ) × List ℚ)) : SolverCall :=
  let As := ecAScales integ basisFn sqrtFn nbasis cached
  ⟨As.1,
   List.zipWith (fun b s => b / s)
     ((List.range nbasis).map (fun j0 => integ aimdens (basisFn j0))) As.2,
   [(As.2.map (fun s => 1 / s), -charge)],
   (List.range nbasis).map (fun j0 =>
     ((List.range nbasis).map
       (fun i => if i = j0 then 1 / As.2.getD j0 0 else (0 : ℚ)),
      (-1 : ℚ)))⟩

/-- One per-atom update of `HirshfeldECPart` (lines 311-391) from the
point where the charge is known.  `aimdens` is the AIM density after
the constant function has been subtracted (lines 330-331); `charge` is
the updated charge of the atom (line 327); `sqrtFn` stands for the
numpy elementwise power 0.5 used for the scales (line 353); `cached`
holds the preconditioned matrix and the scales when the cache already
has them for this atom index (lines 343 and 362-363).  The relative
residual (line 383) and the log output are diagnostics and are not
modelled.  The infeasibility check of lines 339-340 precedes every
other step.  Returns the solver call, the coefficients written into
the procoeffs slice (the solver output divided elementwise by the
scales, line 386), and the pair stored in the cache. -/
def ecUpdateAtom (integ : List ℚ → List ℚ → ℚ) (basisFn : ℕ → List ℚ)
    (sqrtFn : ℚ → ℚ) (aimdens : List ℚ) (index : ℕ) (charge : ℚ)
    (nbasis : ℕ) (cached : Option ((ℕ → ℕ → ℚ) × List ℚ))
    (solver : SolverCall → List ℚ) :
    Except ECError (SolverCall × List ℚ × ((ℕ → ℕ → ℚ) × List ℚ)) :=
  if (nbasis : ℚ) < charge then
    .error (.infeasible index charge nbasis)
  else
    .ok (ecCall integ basisFn sqrtFn aimdens nbasis charge cached,
      List.zipWith (fun xi s => xi / s)
        (solver (ecCall integ basisFn sqrtFn aimdens nbasis charge cached))
        (ecAScales integ basisFn sqrtFn nbasis cached).2,
      ecAScales integ basisFn sqrtFn nbasis cached)

/-- The solver call recorded in a successful C-variant update. -/
def callOfEC
    (r : Except ECError (SolverCall × List ℚ × ((ℕ → ℕ → ℚ) × List ℚ))) :
    SolverCall :=
  match r with
  | .ok (c, _, _) => c
  | .error _ => default

/-- The coefficients written into the procoeffs slice by a successful
C-variant update. -/
def coeffsOfEC
    (r : Except ECError (SolverCall × List ℚ × ((ℕ → ℕ → ℚ) × List ℚ))) :
    List ℚ :=
  match r with
  | .ok (_, x, _) => x
  | .error _ => []

/- ---------------------------------------------------------------
   History bookkeeping (lines 140-154, 183-184, 393-410, 412-430)
   --------------------------------------------------------------- -/

/-- One history entry: the Python code stores a two-element list of a
charges snapshot and a procoeffs snapshot; the C variant temporarily
stores `None` in the charges slot, hence the `Option`. -/
structure HistEntry where
  charges : Option (List ℚ)
  procoeffs : List ℚ
deriving DecidableEq

/-- One iteration of `HirshfeldEDPart._update_propars` as far as the
history is concerned (line 184): a fully formed pair is appended. -/
def edIter (h : List HistEntry) (charges procoeffs : List ℚ) :
    List HistEntry :=
  h ++ [⟨some charges, procoeffs⟩]

/-- The append at the start of `HirshfeldECPart._update_propars`
(line 394): the charges slot of the new entry is still `None`. -/
def ecIterStart (h : List HistEntry) (procoeffs : List ℚ) :
    List HistEntry :=
  h ++ [⟨none, procoeffs⟩]

/-- The write at the end of `HirshfeldECPart._update_propars`
(line 410): `self.history[-1][0] = charges` overwrites the charges
slot of the last entry. -/
def ecSetLastCharges (h : List HistEntry) (charges : List ℚ) :
    List HistEntry :=
  match h.getLast? with
  | none => h
  | some e => h.dropLast ++ [{ e with charges := some charges }]

/-- One full iteration of `HirshfeldECPart._update_propars`: append the
placeholder entry, then fill in its charges slot at the end. -/
def ecIter (h : List HistEntry) (procoeffs charges : List ℚ) :
    List HistEntry :=
  ecSetLastCharges (ecIterStart h procoeffs) charges

/-- `HirshfeldEMixin._finalize_propars` (line 150): one more complete
entry is appended at finalization. -/
def finalizeStep (h : List HistEntry) (charges procoeffs : List ℚ) :
    List HistEntry :=
  h ++ [⟨some charges, procoeffs⟩]

/-- A run of N iterations of the D variant starting from the empty
history created by `_init_propars` (line 141). -/
def edRun (data : List (List ℚ × List ℚ)) : List HistEntry :=
  data.foldl (fun h d => edIter h d.1 d.2) []

/-- A run of N iterations of the C variant starting from the empty
history. -/
def ecRun (data : List (List ℚ × List ℚ)) : List HistEntry :=
  data.foldl (fun h d => ecIter h d.2 d.1) []

/- ---------------------------------------------------------------
   Caching of A (lines 205-221 keyed by atomic number;
   lines 343 and 361-363 keyed by atom index)
   --------------------------------------------------------------- -/

/-- Compute-if-absent sequence over a shared cache: given the keys
requested in order, count how many trigger a fresh computation and
return the final set of stored keys.  Both variants guard the assembly
of A this way; they differ only in the key. -/
def cacheRun [DecidableEq K] : List K → List K → ℕ × List K
  | seen, [] => (0, seen)
  | seen, k :: kl =>
    if k ∈ seen then cacheRun seen kl
    else
      let r := cacheRun (k :: seen) kl
      (r.1 + 1, r.2)

/-- Number of times the D variant assembles A during `niter` sweeps
over the atoms: its cache key is the atomic number of the atom
(`self.cache.has('A', number)`, line 205). -/
def edAComputations (numbers : List ℕ) (niter : ℕ) : ℕ :=
  (cacheRun [] (List.flatten (List.replicate niter numbers))).1

/-- Number of times the C variant assembles A during `niter` sweeps
over the atoms: its cache key is the atom index
(`self._cache.load('A', index, alloc=...)`, line 343). -/
def ecAComputations (numbers : List ℕ) (niter : ℕ) : ℕ :=
  (cacheRun []
    (List.flatten (List.replicate niter (List.range numbers.length)))).1

/- ---------------------------------------------------------------
   HirshfeldECPart.compute_proatom (lines 432-450)
   --------------------------------------------------------------- -/

/-- Elementwise sum of two grids (`output += work`). -/
def vecAdd (a b : List ℚ) : List ℚ := List.zipWith (· + ·) a b

/-- The accumulation loop of `HirshfeldECPart.compute_proatom` in the
branch with a real store and no window: start from the constant
function and add each basis function scaled by its coefficient,
skipping coefficients equal to zero (line 445). -/
def proatomAccum (constantY : List ℚ) (basisFn : ℕ → List ℚ)
    (procoeffs : List ℚ) (beginIdx nbasis : ℕ) : List ℚ :=
  (List.range nbasis).foldl (fun out j =>
    if procoeffs.getD (j + beginIdx) 0 ≠ 0 then
      vecAdd out ((basisFn j).map
        (fun v => procoeffs.getD (j + beginIdx) 0 * v))
    else out) constantY

/-- `HirshfeldECPart.compute_proatom` in the branch with a real store
and no window: the accumulated pro-atom density plus the constant
1e-100 added to every element (line 450). -/
def computeProatom (constantY : List ℚ) (basisFn : ℕ → List ℚ)
    (procoeffs : List ℚ) (beginIdx nbasis : ℕ) : List ℚ :=
  (proatomAccum constantY basisFn procoeffs beginIdx nbasis).map
    (fun v => v + 1 / 10 ^ 100)

/-- A two-function radial basis on a one-point grid, with distinct
values 1 and 2, used to probe the matrix assembly concretely. -/
def pairBasis : ℕ → List ℚ := fun j => if j = 0 then [1] else [2]

/- ===============================================================
   Helper lemmas
   =============================================================== -/

/-- The dot product with an all-ones vector of matching length is the
plain sum. -/
theorem dot_replicate_one (v : List ℚ) (n : ℕ) (h : v.length = n) :
    dot (List.replicate n 1) v = v.sum := by
  induction v generalizing n with
  | nil => subst h; simp [dot]
  | cons a tl ih =>
    subst h
    simp only [List.length_cons, List.replicate_succ, dot,
      List.zipWith_cons_cons, List.sum_cons, one_mul]
    exact congrArg (a + ·) (ih tl.length rfl)

/-- The dot product with the elementwise reciprocal of a scale vector
equals the sum of the elementwise quotients. -/
theorem dot_one_div (x s : List ℚ) :
    dot (s.map (fun t => 1 / t)) x
      = (List.zipWith (fun xi t => xi / t) x s).sum := by
  induction s generalizing x with
  | nil => cases x <;> simp [dot]
  | cons a tl ih =>
    cases x with
    | nil => simp [dot]
    | cons b xtl =>
      simp only [List.map_cons, dot, List.zipWith_cons_cons, List.sum_cons]
      have htl : (List.zipWith (· * ·) (tl.map (fun t => 1 / t)) xtl).sum
          = (List.zipWith (fun xi t => xi / t) xtl tl).sum := ih xtl
      rw [htl, one_div, inv_mul_eq_div]

/-- Indexing a map over a range below the bound. -/
theorem getD_map_range {α : Type} (f : ℕ → α) (d : α) (n j : ℕ)
    (h : j < n) : ((List.range n).map f).getD j d = f j := by
  rw [List.getD_eq_getElem?_getD, List.getElem?_map, List.getElem?_range h]
  rfl

/-- The number of fresh computations of a compute-if-absent run is the
number of distinct requested keys not already stored. -/
theorem cacheRun_count {K : Type} [DecidableEq K] (l : List K) :
    ∀ seen : List K,
      (cacheRun seen l).1 = (l.toFinset \ seen.toFinset).card := by
  induction l with
  | nil => intro seen; simp [cacheRun]
  | cons k kl ih =>
    intro seen
    by_cases hk : k ∈ seen
    · rw [cacheRun, if_pos hk, ih]
      congr 1
      ext x
      simp only [List.toFinset_cons, Finset.mem_sdiff, Finset.mem_insert,
        List.mem_toFinset]
      constructor
      · rintro ⟨hx, hns⟩
        exact ⟨Or.inr hx, hns⟩
      · rintro ⟨hx | hx, hns⟩
        · subst hx; exact absurd hk hns
        · exact ⟨hx, hns⟩
    · rw [cacheRun, if_neg hk]
      simp only [ih (k :: seen)]
      have e1 : (k :: kl).toFinset \ seen.toFinset
          = insert k (kl.toFinset \ seen.toFinset) := by
        ext x
        simp only [List.toFinset_cons, Finset.mem_sdiff, Finset.mem_insert,
          List.mem_toFinset]
        constructor
        · rintro ⟨hx | hx, hns⟩
          · exact Or.inl hx
          · exact Or.inr ⟨hx, hns⟩
        · rintro (hx | ⟨hx, hns⟩)
          · subst hx; exact ⟨Or.inl rfl, hk⟩
          · exact ⟨Or.inr hx, hns⟩
      have e2 : kl.toFinset \ (k :: seen).toFinset
          = (kl.toFinset \ seen.toFinset).erase k := by
        ext x
        simp only [List.toFinset_cons, Finset.mem_sdiff, Finset.mem_insert,
          Finset.mem_erase, List.mem_toFinset, List.mem_cons]
        constructor
        · rintro ⟨hx, hns⟩
          exact ⟨fun hxk => hns (Or.inl hxk), hx, fun hxs => hns (Or.inr hxs)⟩
        · rintro ⟨hxk, hx, hns⟩
          exact ⟨hx, fun hor => hor.elim hxk hns⟩
      have e3 : insert k (kl.toFinset \ seen.toFinset)
          = insert k ((kl.toFinset \ seen.toFinset).erase k) := by
        ext x
        simp only [Finset.mem_insert, Finset.mem_erase]
        constructor
        · rintro (hx | hx)
          · exact Or.inl hx
          · by_cases hxk : x = k
            · exact Or.inl hxk
            · exact Or.inr ⟨hxk, hx⟩
        · rintro (hx | ⟨_, hx⟩)
          · exact Or.inl hx
          · exact Or.inr hx
      rw [e1, e2, e3,
        Finset.card_insert_of_not_mem (Finset.not_mem_erase _ _)]

/-- Repeating the same access list does not change the set of distinct
keys. -/
theorem flatten_replicate_toFinset {K : Type} [DecidableEq K]
    (l : List K) (n : ℕ) (hn : 0 < n) :
    (List.flatten (List.replicate n l)).toFinset = l.toFinset := by
  induction n with
  | zero => exact absurd hn (lt_irrefl 0)
  | succ m ih =>
    rcases Nat.eq_zero_or_pos m with h0 | hpos
    · subst h0; simp
    · simp [List.replicate_succ, List.toFinset_append, ih hpos]

/-- Appending one entry leaves every earlier history entry in place. -/
theorem take_append_one {α : Type} (h : List α) (e : α) :
    (h ++ [e]).take h.length = h :=
  List.take_left h [e]

/-- The C-variant iteration appends one entry that ends the iteration
holding the charges written at line 410. -/
theorem ecIter_append (h : List HistEntry) (p c : List ℚ) :
    ecIter h p c = h ++ [⟨some c, p⟩] := by
  unfold ecIter ecSetLastCharges ecIterStart
  rw [List.getLast?_concat, List.dropLast_concat]

/-- Zipping two maps over the same list combines them pointwise. -/
theorem zipWith_map_both {α β γ δ : Type} (g : β → γ → δ) (f : α → β)
    (h2 : α → γ) (l : List α) :
    List.zipWith g (l.map f) (l.map h2) = l.map (fun x => g (f x) (h2 x)) := by
  induction l with
  | nil => rfl
  | cons a tl ih => simp [ih]

/-- Length bookkeeping of a D-variant run. -/
theorem edRun_length_aux (data : List (List ℚ × List ℚ))
    (h : List HistEntry) :
    (data.foldl (fun h2 d => edIter h2 d.1 d.2) h).length
      = h.length + data.length := by
  induction data generalizing h with
  | nil => simp
  | cons d tl ih =>
    rw [List.foldl_cons, ih]
    simp only [edIter, List.length_append, List.length_cons, List.length_nil]
    omega

/-- Length bookkeeping of a C-variant run. -/
theorem ecRun_length_aux (data : List (List ℚ × List ℚ))
    (h : List HistEntry) :
    (data.foldl (fun h2 d => ecIter h2 d.2 d.1) h).length
      = h.length + data.length := by
  induction data generalizing h with
  | nil => simp
  | cons d tl ih =>
    rw [List.foldl_cons, ih]
    simp only [ecIter_append, List.length_append, List.length_cons,
      List.length_nil]
    omega

/- ===============================================================
   Claim theorems
   =============================================================== -/

/-- C2: the basis builder sets `complete` true exactly when the most
positive available charge state (the first listed one, which dominates
all others) has pseudo-population exactly 1, and the per-atom basis
size is the number of available charge states minus one, plus one when
complete; in particular for the hydrogen scenario (states 0 and +1,
pseudo-population 1 at charge 0 and 0 at charge +1) `complete` is
false and the basis size is 1. -/
theorem C2_basis_complete_and_size (db : ProAtomDB) (number : ℕ) (m : ℤ)
    (hne : db.getCharges number ≠ [])
    (hhead : (db.getCharges number).headD 0 = m)
    (hmax : ∀ c ∈ db.getCharges number, c ≤ m) :
    (heComplete db number = true ↔ db.pseudoPopulation number m = 1)
    ∧ heAtomNbasis db number
        = (db.getCharges number).length - 1
          + (if db.pseudoPopulation number m = 1 then 1 else 0)
    ∧ heComplete hydrogenDB 1 = false
    ∧ heAtomNbasis hydrogenDB 1 = 1 := by
  have h1 : heComplete db number = true ↔ db.pseudoPopulation number m = 1 := by
    unfold heComplete
    rw [hhead]
    exact beq_iff_eq
  refine ⟨h1, ?_, by decide, by decide⟩
  unfold heAtomNbasis
  congr 1
  by_cases hp : db.pseudoPopulation number m = 1
  · rw [if_pos (h1.mpr hp), if_pos hp]
  · rw [if_neg (fun hc => hp (h1.mp hc)), if_neg hp]

/-- C2 witness: the hydrogen database instantiates all hypotheses. -/
theorem C2_witness :
    (heComplete hydrogenDB 1 = true ↔ hydrogenDB.pseudoPopulation 1 1 = 1)
    ∧ heAtomNbasis hydrogenDB 1
        = (hydrogenDB.getCharges 1).length - 1
          + (if hydrogenDB.pseudoPopulation 1 1 = 1 then 1 else 0)
    ∧ heComplete hydrogenDB 1 = false
    ∧ heAtomNbasis hydrogenDB 1 = 1 :=
  C2_basis_complete_and_size hydrogenDB 1 1 (by decide) (by decide) (by decide)

/-- C3: the D-variant matrix assembly does not compute the claimed
product of two distinct basis functions.  With one quadrature weight 1
and basis values 1 (function 0) and 2 (function 1), the code stores
A[1,0] = 4, the square of function 1, where the weighted integral of
function 1 times function 0 is 2; the C-variant assembly, which reads
both indices, yields 2 as the claim describes.  The divergence comes
from line 214, which builds `spline1` from `j0` instead of `j1`. -/
theorem C3_offdiagonal_uses_same_function :
    edMatrixA [1] pairBasis 2 1 0 = 4
    ∧ dotMulti [1] (pairBasis 1) (pairBasis 0) = 2
    ∧ ecMatrixA (fun a b => dotMulti [1] a b) pairBasis 2 1 0 = 2
    ∧ (4 : ℚ) ≠ 2 := by
  refine ⟨?_, ?_, ?_, by norm_num⟩ <;>
    norm_num [edMatrixA, ecMatrixA, pairBasis, dotMulti, matUpd, matZero,
      List.range_succ]

/-- C4: a zero diagonal entry of A is not rejected by the D-variant
assembly.  With one weight 1 and a basis function that vanishes on the
radial grid, A[0,0] = 0, yet the update succeeds: the check on
line 218 only fires for strictly negative entries, although the
message on line 219 and the claim demand a positive diagonal; no error
carrying the atomic number is produced. -/
theorem C4_zero_diagonal_accepted :
    edMatrixA [1] (fun _ => [0]) 1 0 0 = 0
    ∧ isOkE (edUpdateAtom [1] (fun _ => [0]) [0] (fun _ => 0) 1 0
        (fun _ => [0])) = true := by
  constructor <;>
    norm_num [edUpdateAtom, edMatrixA, dotMulti, matUpd, matZero,
      List.range_succ, isOkE]

/-- C7 counterexample: the two-charge lico mapping +1 to 1 and 0 to -1
renders as the string plus-zero-underscore-plus-one, not as the string
plus-one-underscore-zero stated by the claim: ascending sorting puts 0
first and the signed integer format prints 0 with a plus sign. -/
theorem C7_counterexample :
    getBasisLabel [((1 : ℤ), (1 : ℚ)), (0, -1)] = some "+0_+1"
    ∧ ("+0_+1" : String) ≠ "+1_0" := by decide

/-- C7 amended: the single-charge lico renders as the signed charge,
and the two-charge lico renders as both signed charges joined by an
underscore in ascending order of charge, zero included with an
explicit plus sign. -/
theorem C7_basis_labels :
    getBasisLabel [((1 : ℤ), (1 : ℚ))] = some "+1"
    ∧ getBasisLabel [((1 : ℤ), (1 : ℚ)), (0, -1)] = some "+0_+1"
    ∧ List.insertionSort (· ≤ ·) ([1, 0] : List ℤ) = [0, 1] := by decide

/-- C8 counterexample: two atoms of the same element (both atomic
number 6) make the C variant assemble A twice in a single iteration,
because its cache key is the atom index, not the atomic number. -/
theorem C8_counterexample :
    ecAComputations [6, 6] 1 = 2 ∧ (2 : ℕ) ≠ 1 := by decide

/-- C8 amended: across any positive number of iterations the D variant
assembles A once per distinct atomic number (its cache key), while the
C variant assembles A once per atom index, also when two atoms share
an element; in both variants the matrix is reused across iterations.
B is not cached: on a cache hit for A, the C-variant solver call still
carries B computed from the current residual density. -/
theorem C8_cache_keys (numbers : List ℕ) (niter : ℕ) (hn : 0 < niter)
    (integ : List ℚ → List ℚ → ℚ) (basisFn : ℕ → List ℚ) (sqrtFn : ℚ → ℚ)
    (aimdens : List ℚ) (index : ℕ) (charge : ℚ) (n : ℕ)
    (Apre : ℕ → ℕ → ℚ) (scalesPre : List ℚ) (solver : SolverCall → List ℚ)
    (hq : charge ≤ (n : ℚ)) :
    edAComputations numbers niter = numbers.toFinset.card
    ∧ ecAComputations numbers niter = numbers.length
    ∧ (callOfEC (ecUpdateAtom integ basisFn sqrtFn aimdens index charge n
        (some (Apre, scalesPre)) solver)).vecB
      = List.zipWith (fun b s => b / s)
          ((List.range n).map (fun j0 => integ aimdens (basisFn j0)))
          scalesPre := by
  refine ⟨?_, ?_, ?_⟩
  · rw [edAComputations, cacheRun_count,
      flatten_replicate_toFinset numbers niter hn]
    simp
  · rw [ecAComputations, cacheRun_count,
      flatten_replicate_toFinset (List.range numbers.length) niter hn]
    simp [List.card_toFinset, List.Nodup.dedup (List.nodup_range _)]
  · rw [ecUpdateAtom, if_neg (not_lt.mpr hq)]
    rfl

/-- C8 witness: two carbon atoms over two iterations; one D-variant
assembly, two C-variant assemblies, and a fresh B on a cache hit. -/
theorem C8_witness :
    edAComputations [6, 6] 2 = ([6, 6] : List ℕ).toFinset.card
    ∧ ecAComputations [6, 6] 2 = ([6, 6] : List ℕ).length
    ∧ (callOfEC (ecUpdateAtom (fun a b => dot a b) (fun _ => [2])
        (fun _ => 0) [3] 0 0 1 (some (fun _ _ => 1, [2]))
        (fun _ => [6]))).vecB
      = List.zipWith (fun b s => b / s)
          ((List.range 1).map (fun j0 => dot [3] [2])) [2] :=
  C8_cache_keys [6, 6] 2 (by norm_num) (fun a b => dot a b) (fun _ => [2])
    (fun _ => 0) [3] 0 0 1 (fun _ _ => 1) [2] (fun _ => [6]) (by norm_num)

/-- C9 counterexample: the C-variant iteration first appends an entry
whose charges slot is `None` (line 394) and then overwrites that slot
at the end of the same iteration (line 410), so the entry as created
differs from the entry the iteration leaves behind: entries are
mutated after creation. -/
theorem C9_counterexample :
    ecIterStart [] [1] = [⟨none, [1]⟩]
    ∧ ecIter [] [1] [2] = [⟨some [2], [1]⟩]
    ∧ (⟨none, [1]⟩ : HistEntry) ≠ ⟨some [2], [1]⟩ := by decide

/-- C9 amended: after N iterations the history has exactly N entries
and finalization appends exactly one more; every entry present before
an iteration or before finalization is left untouched; the D variant
appends complete pairs, while the C variant appends a placeholder
whose charges slot is written once at the end of the same iteration,
after which the entry holds the complete pair. -/
theorem C9_history_lengths (h : List HistEntry) (p c : List ℚ)
    (data : List (List ℚ × List ℚ)) :
    (edRun data).length = data.length
    ∧ (ecRun data).length = data.length
    ∧ (finalizeStep h c p).length = h.length + 1
    ∧ (edIter h c p).take h.length = h
    ∧ (ecIter h p c).take h.length = h
    ∧ (finalizeStep h c p).take h.length = h
    ∧ edIter h c p = h ++ [⟨some c, p⟩]
    ∧ ecIter h p c = h ++ [⟨some c, p⟩] := by
  refine ⟨?_, ?_, ?_, ?_, ?_, ?_, rfl, ecIter_append h p c⟩
  · rw [edRun, edRun_length_aux]
    simp
  · rw [ecRun, ecRun_length_aux]
    simp
  · simp [finalizeStep]
  · exact take_append_one h _
  · rw [ecIter_append]
    exact take_append_one h _
  · exact take_append_one h _

/-- C5 counterexample: the D-variant per-atom update raises no
infeasibility error: with target charge 5 and basis size 2 it runs to
completion and invokes the solver, refuting the claim that both
partitioning variants raise the error before the solver is called. -/
theorem C5_counterexample :
    isOkE (edUpdateAtom [1] (fun _ => [1]) [0] (fun _ => 0) 2 5
      (fun _ => [0, 0])) = true
    ∧ (2 : ℚ) < 5 := by
  constructor
  · norm_num [edUpdateAtom, edMatrixA, dotMulti, matUpd, matZero,
      List.range_succ, isOkE]
  · norm_num

/-- C5 amended: only the C-variant update checks feasibility; it
raises the error exactly when the target charge exceeds the basis
size, before any other work — for every solver the same error value is
returned, carrying the atom index, the numeric target charge and the
basis size — and raises nothing when the target does not exceed the
basis size. -/
theorem C5_infeasible_check (integ : List ℚ → List ℚ → ℚ)
    (basisFn : ℕ → List ℚ) (sqrtFn : ℚ → ℚ) (aimdens : List ℚ)
    (index : ℕ) (charge : ℚ) (nbasis : ℕ)
    (cached : Option ((ℕ → ℕ → ℚ) × List ℚ))
    (solver : SolverCall → List ℚ) :
    ((nbasis : ℚ) < charge →
      ecUpdateAtom integ basisFn sqrtFn aimdens index charge nbasis cached
          solver
        = .error (.infeasible index charge nbasis))
    ∧ (charge ≤ (nbasis : ℚ) →
      isOkE (ecUpdateAtom integ basisFn sqrtFn aimdens index charge nbasis
          cached solver) = true) := by
  constructor
  · intro hlt
    rw [ecUpdateAtom, if_pos hlt]
  · intro hle
    rw [ecUpdateAtom, if_neg (not_lt.mpr hle)]
    rfl

/-- C5 witness: a concrete infeasible case (target 5, basis size 2)
raises the structured error, and a feasible case (target 1) does
not. -/
theorem C5_witness :
    ecUpdateAtom (fun a b => dot a b) (fun _ => [1]) (fun _ => 0) [0] 3 5 2
        none (fun _ => [0, 0])
      = .error (.infeasible 3 5 2)
    ∧ isOkE (ecUpdateAtom (fun a b => dot a b) (fun _ => [1]) (fun _ => 0)
        [0] 3 1 2 none (fun _ => [0, 0])) = true :=
  ⟨(C5_infeasible_check (fun a b => dot a b) (fun _ => [1]) (fun _ => 0)
      [0] 3 5 2 none (fun _ => [0, 0])).1 (by norm_num),
   (C5_infeasible_check (fun a b => dot a b) (fun _ => [1]) (fun _ => 0)
      [0] 3 1 2 none (fun _ => [0, 0])).2 (by norm_num)⟩

/-- C6 counterexample: the D-variant update applies no preconditioning
whatsoever.  With a single basis function of radial value 2 and one
unit weight, the diagonal of A is 4, whose positive square root is 2,
yet the solver receives the raw matrix entry 4 (not 4 divided by 2
times 2) and the all-ones equality coefficient vector (not the ones
divided by the scales), refuting the claim for that per-atom solve. -/
theorem C6_counterexample :
    (callOfED (edUpdateAtom [1] (fun _ => [2]) [0] (fun _ => 0) 1 0
        (fun _ => [0]))).matA 0 0 = 4
    ∧ (callOfED (edUpdateAtom [1] (fun _ => [2]) [0] (fun _ => 0) 1 0
        (fun _ => [0]))).lcsEq = [([1], 0)]
    ∧ (0 : ℚ) < 2 ∧ (2 : ℚ) * 2 = 4
    ∧ (4 : ℚ) ≠ 4 / (2 * 2)
    ∧ ([(1 : ℚ)] : List ℚ) ≠ [1 / 2] := by
  refine ⟨?_, ?_, by norm_num, by norm_num, by norm_num, by simp⟩ <;>
    norm_num [edUpdateAtom, edCall, edMatrixA, dotMulti, matUpd, matZero,
      List.range_succ, callOfED, List.replicate]

/-- C6 amended: in the C-variant per-atom solve, with the scale of
index j being the positive square root of diagonal entry j of the raw
matrix, the solver receives the matrix with every entry divided by the
product of its row scale and its column scale (so unit diagonal), B
divided elementwise by the scales, the equality coefficient vector
ones-over-scales with right-hand side minus the charge, inequality
vector j equal to the unit vector j divided by scale j with right-hand
side -1, and the solver output is divided elementwise by the scales
before being written into the procoeffs slice.  The D variant applies
none of this (see the counterexample). -/
theorem C6_preconditioning (integ : List ℚ → List ℚ → ℚ)
    (basisFn : ℕ → List ℚ) (sqrtFn : ℚ → ℚ) (aimdens : List ℚ)
    (index : ℕ) (charge : ℚ) (n : ℕ) (solver : SolverCall → List ℚ)
    (hq : charge ≤ (n : ℚ))
    (hs : ∀ j, j < n →
      0 < sqrtFn (ecMatrixA integ basisFn n j j)
      ∧ sqrtFn (ecMatrixA integ basisFn n j j)
          * sqrtFn (ecMatrixA integ basisFn n j j)
        = ecMatrixA integ basisFn n j j) :
    (∀ i j, i < n → j < n →
      (ecCall integ basisFn sqrtFn aimdens n charge none).matA i j
        = ecMatrixA integ basisFn n i j
          / (sqrtFn (ecMatrixA integ basisFn n i i)
             * sqrtFn (ecMatrixA integ basisFn n j j)))
    ∧ (∀ j, j < n →
      (ecCall integ basisFn sqrtFn aimdens n charge none).matA j j = 1)
    ∧ (ecCall integ basisFn sqrtFn aimdens n charge none).vecB
        = (List.range n).map (fun j =>
            integ aimdens (basisFn j)
              / sqrtFn (ecMatrixA integ basisFn n j j))
    ∧ (ecCall integ basisFn sqrtFn aimdens n charge none).lcsEq
        = [((List.range n).map (fun j =>
            1 / sqrtFn (ecMatrixA integ basisFn n j j)), -charge)]
    ∧ (ecCall integ basisFn sqrtFn aimdens n charge none).lcsIneq
        = (List.range n).map (fun j0 =>
            ((List.range n).map (fun i =>
              if i = j0 then 1 / sqrtFn (ecMatrixA integ basisFn n j0 j0)
              else 0), (-1 : ℚ)))
    ∧ coeffsOfEC (ecUpdateAtom integ basisFn sqrtFn aimdens index charge n
          none solver)
        = List.zipWith (fun xi s => xi / s)
            (solver (ecCall integ basisFn sqrtFn aimdens n charge none))
            ((List.range n).map (fun j =>
              sqrtFn (ecMatrixA integ basisFn n j j))) := by
  have hmat : ∀ i j, i < n → j < n →
      (ecCall integ basisFn sqrtFn aimdens n charge none).matA i j
        = ecMatrixA integ basisFn n i j
          / (sqrtFn (ecMatrixA integ basisFn n i i)
             * sqrtFn (ecMatrixA integ basisFn n j j)) := by
    intro i j hi hj
    show divRows (divCols (ecMatrixA integ basisFn n) _) _ i j = _
    rw [divRows, divCols]
    rw [getD_map_range _ _ _ _ hj, getD_map_range _ _ _ _ hi, div_div,
      mul_comm]
  refine ⟨hmat, ?_, ?_, ?_, ?_, ?_⟩
  · intro j hj
    have hpos : 0 < sqrtFn (ecMatrixA integ basisFn n j j)
        * sqrtFn (ecMatrixA integ basisFn n j j) :=
      mul_pos (hs j hj).1 (hs j hj).1
    rw [hmat j j hj hj, (hs j hj).2]
    exact div_self (ne_of_gt ((hs j hj).2 ▸ hpos))
  · show List.zipWith _ ((List.range n).map _) ((List.range n).map _) = _
    rw [zipWith_map_both]
  · show [(((List.range n).map _).map _, -charge)] = _
    rw [List.map_map]
    rfl
  · show (List.range n).map _ = (List.range n).map _
    refine List.map_congr_left (fun j0 hj0 => ?_)
    have hsc : (ecAScales integ basisFn sqrtFn n none).2
        = (List.range n).map
            (fun j => sqrtFn (ecMatrixA integ basisFn n j j)) := rfl
    simp only [hsc, getD_map_range _ _ _ _ (List.mem_range.mp hj0)]
  · rw [ecUpdateAtom, if_neg (not_lt.mpr hq)]
    rfl

/-- C6 witness: one basis function of value 2 on a one-point grid;
the raw diagonal is 4, its square root 2, the preconditioned diagonal
1, and the solver output 6 is written back as 3. -/
theorem C6_witness :
    (ecCall (fun a b => dot a b) (fun _ => [2])
        (fun q => if q == 4 then 2 else 0) [3] 1 0 none).matA 0 0 = 1
    ∧ coeffsOfEC (ecUpdateAtom (fun a b => dot a b) (fun _ => [2])
        (fun q => if q == 4 then 2 else 0) [3] 0 0 1 none
        (fun _ => [6])) = [3] := by
  have H := C6_preconditioning (fun a b => dot a b) (fun _ => [2])
    (fun q => if q == 4 then 2 else 0) [3] 0 0 1 (fun _ => [6])
    (by norm_num)
    (by
      intro j hj
      have hj0 : j = 0 := by omega
      subst hj0
      constructor <;>
        norm_num [ecMatrixA, dot, matUpd, matZero, List.range_succ])
  refine ⟨H.2.1 0 (by norm_num), ?_⟩
  rw [H.2.2.2.2.2]
  norm_num [ecCall, ecAScales, ecMatrixA, dot, matUpd, matZero,
    List.range_succ]

/-- C1 counterexample: in a D-variant solve with one basis function
and target charge 1/2, the equality constraint handed to the solver
(all-ones coefficients, right-hand side minus the target) is satisfied
by the vector whose single entry is -1/2 — a vector whose sum is the
negative of the target charge, not the target charge; so the
constraint does not require the coefficient sum to equal the target
charge. -/
theorem C1_counterexample :
    satisfiesCall (edCall [1] (fun _ => [1]) [0] (fun _ => 0) 1 (1 / 2))
      [-(1 / 2 : ℚ)] = true
    ∧ List.sum [-(1 / 2 : ℚ)] ≠ (1 / 2 : ℚ) := by
  constructor
  · norm_num [satisfiesCall, edCall, dot, List.replicate, List.range_succ]
  · norm_num

/-- C1 amended: in both variants exactly one equality constraint is
handed to the solver, and it forces the written coefficients to sum to
the NEGATIVE of the target charge: whenever the solver output
satisfies the equality constraint of the call, the coefficients
written into the procoeffs slice (the raw output in the D variant, the
output divided by the scales in the C variant) sum to minus the
charge, so the sum of each atom's final procoeffs equals minus its
final charge. -/
theorem C1_charge_constraint (weights : List ℚ) (basisY : ℕ → List ℚ)
    (constantY : List ℚ) (gridIntB : ℕ → ℚ) (nbasis1 : ℕ)
    (targetCharge : ℚ) (solver1 : SolverCall → List ℚ)
    (integ : List ℚ → List ℚ → ℚ) (basisFn : ℕ → List ℚ) (sqrtFn : ℚ → ℚ)
    (aimdens : List ℚ) (index : ℕ) (charge : ℚ) (nbasis2 : ℕ)
    (cached : Option ((ℕ → ℕ → ℚ) × List ℚ))
    (solver2 : SolverCall → List ℚ)
    (hlen1 : (solver1 (edCall weights basisY constantY gridIntB nbasis1
        targetCharge)).length = nbasis1)
    (hsat1 : satisfiesCall
        (edCall weights basisY constantY gridIntB nbasis1 targetCharge)
        (solver1 (edCall weights basisY constantY gridIntB nbasis1
          targetCharge)) = true)
    (hw : weights.all (fun w => decide (0 < w)) = true)
    (hd : (List.range nbasis1).any
        (fun j => decide (edMatrixA weights basisY nbasis1 j j < 0)) = false)
    (hq : charge ≤ (nbasis2 : ℚ))
    (hsat2 : satisfiesCall
        (ecCall integ basisFn sqrtFn aimdens nbasis2 charge cached)
        (solver2 (ecCall integ basisFn sqrtFn aimdens nbasis2 charge
          cached)) = true) :
    (edCall weights basisY constantY gridIntB nbasis1
        targetCharge).lcsEq.length = 1
    ∧ (coeffsOfED (edUpdateAtom weights basisY constantY gridIntB nbasis1
        targetCharge solver1)).sum = -targetCharge
    ∧ (ecCall integ basisFn sqrtFn aimdens nbasis2 charge
        cached).lcsEq.length = 1
    ∧ (coeffsOfEC (ecUpdateAtom integ basisFn sqrtFn aimdens index charge
        nbasis2 cached solver2)).sum = -charge := by
  have hco1 : coeffsOfED (edUpdateAtom weights basisY constantY gridIntB
      nbasis1 targetCharge solver1)
      = solver1 (edCall weights basisY constantY gridIntB nbasis1
          targetCharge) := by
    rw [edUpdateAtom, if_pos hw, hd]
    rfl
  have heq1 : dot (List.replicate nbasis1 1)
      (solver1 (edCall weights basisY constantY gridIntB nbasis1
        targetCharge)) = -targetCharge := by
    have := (Bool.and_eq_true _ _).mp hsat1 |>.1
    simp only [edCall, List.all_cons, List.all_nil, Bool.and_true,
      beq_iff_eq] at this
    exact this
  have hco2 : coeffsOfEC (ecUpdateAtom integ basisFn sqrtFn aimdens index
      charge nbasis2 cached solver2)
      = List.zipWith (fun xi s => xi / s)
          (solver2 (ecCall integ basisFn sqrtFn aimdens nbasis2 charge
            cached))
          (ecAScales integ basisFn sqrtFn nbasis2 cached).2 := by
    rw [ecUpdateAtom, if_neg (not_lt.mpr hq)]
    rfl
  have heq2 : dot ((ecAScales integ basisFn sqrtFn nbasis2 cached).2.map
      (fun t => 1 / t))
      (solver2 (ecCall integ basisFn sqrtFn aimdens nbasis2 charge
        cached)) = -charge := by
    have := (Bool.and_eq_true _ _).mp hsat2 |>.1
    simp only [ecCall, List.all_cons, List.all_nil, Bool.and_true,
      beq_iff_eq] at this
    exact this
  refine ⟨rfl, ?_, rfl, ?_⟩
  · rw [hco1, ← dot_replicate_one _ nbasis1 hlen1, heq1]
  · rw [hco2, ← dot_one_div, heq2]

/-- C1 witness: concrete one-dimensional solves for both variants in
which the solver output satisfies the handed equality constraint; the
written coefficients sum to minus the respective target charge. -/
theorem C1_witness :
    (edCall [1] (fun _ => [1]) [0] (fun _ => 0) 1 (1 / 2)).lcsEq.length = 1
    ∧ (coeffsOfED (edUpdateAtom [1] (fun _ => [1]) [0] (fun _ => 0) 1
        (1 / 2) (fun _ => [-(1 / 2 : ℚ)]))).sum = -(1 / 2)
    ∧ (ecCall (fun a b => dot a b) (fun _ => [2]) (fun _ => 0) [0] 1 1
        (some (fun _ _ => 1, [2]))).lcsEq.length = 1
    ∧ (coeffsOfEC (ecUpdateAtom (fun a b => dot a b) (fun _ => [2])
        (fun _ => 0) [0] 0 1 1 (some (fun _ _ => 1, [2]))
        (fun _ => [-2]))).sum = -1 :=
  C1_charge_constraint [1] (fun _ => [1]) [0] (fun _ => 0) 1 (1 / 2)
    (fun _ => [-(1 / 2 : ℚ)]) (fun a b => dot a b) (fun _ => [2])
    (fun _ => 0) [0] 0 1 1 (some (fun _ _ => 1, [2])) (fun _ => [-2])
    (by norm_num)
    (by norm_num [satisfiesCall, edCall, dot, List.replicate,
      List.range_succ])
    (by norm_num)
    (by norm_num [edMatrixA, dotMulti, matUpd, matZero, List.range_succ])
    (by norm_num)
    (by norm_num [satisfiesCall, ecCall, ecAScales, dot, List.range_succ])

/-- C10 counterexample: with a vanishing constant function, one basis
function of value -1 and coefficient 1, the pro-atom density returned
by `compute_proatom` is -1 plus 1e-100 at the only grid point, which
is negative: adding 1e-100 does not make the output strictly positive
at every grid point for arbitrary accumulated values. -/
theorem C10_counterexample :
    (computeProatom [0] (fun _ => [-1]) [1] 0 1).all
      (fun v => decide (0 < v)) = false := by
  norm_num [computeProatom, proatomAccum, vecAdd, List.range_succ]

/-- C10 amended: `compute_proatom` adds the constant 1e-100 to every
element after accumulating the constant function and the
coefficient-weighted basis functions (skipping zero coefficients), so
wherever the accumulated density is nonnegative — as it is for true
densities — the returned value is strictly positive and a later
division by it cannot divide by exactly zero. -/
theorem C10_positive_of_nonneg (constantY : List ℚ) (basisFn : ℕ → List ℚ)
    (procoeffs : List ℚ) (beginIdx nbasis : ℕ)
    (hnn : ∀ v ∈ proatomAccum constantY basisFn procoeffs beginIdx nbasis,
      0 ≤ v) :
    ∀ v ∈ computeProatom constantY basisFn procoeffs beginIdx nbasis,
      0 < v := by
  intro v hv
  rcases List.mem_map.mp hv with ⟨w, hw, rfl⟩
  have hw0 := hnn w hw
  have heps : (0 : ℚ) < 1 / 10 ^ 100 := by positivity
  linarith

/-- C10 witness: a one-point grid with constant value 0 and no basis
functions; the accumulated density is nonnegative and the returned
density is strictly positive. -/
theorem C10_witness :
    (∀ v ∈ proatomAccum [0] (fun _ => ([] : List ℚ)) [] 0 0, 0 ≤ v)
    ∧ ∀ v ∈ computeProatom [0] (fun _ => ([] : List ℚ)) [] 0 0, 0 < v :=
  ⟨by simp [proatomAccum],
   C10_positive_of_nonneg [0] (fun _ => ([] : List ℚ)) [] 0 0
     (by simp [proatomAccum])⟩

end HirshfeldE
